import Mathlib

/-!
Verification of the randomized CTV test-vector generator.

The generator draws from a deterministic seeded random stream (`ChaCha20Rng`
in the implementation).  We model the stream abstractly as an arbitrary
infinite sequence of machine words together with a position: each primitive
draw (`next_u32`, `next_u64`, one byte of `fill_bytes`) consumes one word of
the underlying sequence.  All theorems are quantified over the underlying
sequence, so they hold for every seed.

Machine integers are modelled as `Nat` with explicit `% 2 ^ 32` / `% 2 ^ 64`
reductions where the implementation truncates; `usize` is 64 bits wide and
`saturating_sub` on `usize` is exactly truncated subtraction on `Nat`.
-/

namespace CtvGen

/-- A deterministic random stream: the underlying word sequence plus the
current position.  Same sequence and position always produce the same
draws (the reproducibility invariant of the seeded stream). -/
structure RngState where
  gen : Nat → Nat
  pos : Nat

/-- `rand.next_u32()`: one draw, truncated to 32 bits. -/
def nextU32 (s : RngState) : Nat × RngState :=
  (s.gen s.pos % 2 ^ 32, ⟨s.gen, s.pos + 1⟩)

/-- `rand.next_u64()`: one draw, truncated to 64 bits. -/
def nextU64 (s : RngState) : Nat × RngState :=
  (s.gen s.pos % 2 ^ 64, ⟨s.gen, s.pos + 1⟩)

/-- `rand.fill_bytes(buf)` for a buffer of `n` bytes: one stream word per
byte, truncated to 8 bits. -/
def fill_bytes (n : Nat) (s : RngState) : List Nat × RngState :=
  ((List.range n).map fun i => s.gen (s.pos + i) % 256, ⟨s.gen, s.pos + n⟩)

/-- `random_range`: `let x = rand.next_u64() as usize;
let size = max(range.end() - range.start(), 0) + 1;
range.start() + (x % size)`.  A range is the inclusive pair
`(start, end)`. -/
def random_range (range : Nat × Nat) (s : RngState) : Nat × RngState :=
  let (x, s') := nextU64 s
  (range.1 + x % (max (range.2 - range.1) 0 + 1), s')

def INPUT_COUNT : Nat × Nat := (1, 129)
def OUTPUT_COUNT : Nat × Nat := (0, 129)

def SCRIPT_PUBKEY_LENGTH : Nat × Nat := (0, 129)
def SCRIPT_SIG_LENGTH : Nat × Nat := (0, 129)
def WITNESS_LENGTH : Nat × Nat := (0, 129)
def WITNESS_ITEM_LENGTH : Nat × Nat := (0, 520)

/-- An approximate amount of random bytes in the transaction. -/
def RANDOM_BYTES_COUNT : Nat × Nat := (0, 10000)

/-- `random_bytes_lt`: generate a random number of random bytes, no more
than `max_bytes`.  Returns the bytes, the updated budget and the updated
stream.  `*max_bytes = max_bytes.saturating_sub(length)` is `Nat`
subtraction. -/
def random_bytes_lt (range : Nat × Nat) (max_bytes : Nat) (s : RngState) :
    List Nat × Nat × RngState :=
  if max_bytes < 1 then ([], max_bytes, s)
  else
    let (c, s') := random_range range s
    let length := c % (max_bytes + 1)
    let max_bytes' := max_bytes - length
    let (bytes, s'') := fill_bytes length s'
    (bytes, max_bytes', s'')

def random_witness_item (max_bytes : Nat) (s : RngState) :
    List Nat × Nat × RngState :=
  random_bytes_lt WITNESS_ITEM_LENGTH max_bytes s

/-- `Txid::hash` of the drawn 32-byte preimage.  The hash itself lives in the
external `bitcoin` crate, not in this repository; no claim constrains its
value, only that a transaction id is 32 bytes.  Modelled from the spec: an
opaque length-preserving map on the 32-byte preimage. -/
def txid_hash (preimage : List Nat) : List Nat := preimage

structure OutPoint where
  txid : List Nat
  vout : Nat
deriving DecidableEq

structure TxIn where
  previous_output : OutPoint
  script_sig : List Nat
  sequence : Nat
  witness : List (List Nat)
deriving DecidableEq

structure TxOut where
  value : Nat
  script_pubkey : List Nat
deriving DecidableEq

/-- The transaction structure.  `version` is stored as the raw drawn
32-bit word (the implementation reinterprets it as `i32`; the bit pattern
is identical). -/
structure Transaction where
  version : Nat
  lock_time : Nat
  input : List TxIn
  output : List TxOut
deriving DecidableEq

/-- `Amount::MAX_MONEY.to_sat()`: 21 million bitcoin in satoshis. -/
def MAX_MONEY : Nat := 2100000000000000

/-- The common shape of the three generation loops of `random_tx`:
`for _ in 0..count { let x = step(..); push(x);
if random_bytes_remaining < 1 { break; } }`.
The freshly generated element is pushed first; the budget check comes
after the push. -/
def push_loop (step : Nat → RngState → α × Nat × RngState) :
    Nat → Nat → RngState → List α × Nat × RngState
  | 0, budget, s => ([], budget, s)
  | Nat.succ n, budget, s =>
    let (x, budget', s') := step budget s
    if budget' < 1 then ([x], budget', s')
    else
      let (rest, budget'', s'') := push_loop step n budget' s'
      (x :: rest, budget'', s'')

/-- The witness-item loop of `random_tx`. -/
def witness_items_loop (n budget : Nat) (s : RngState) :
    List (List Nat) × Nat × RngState :=
  push_loop random_witness_item n budget s

/-- One iteration of the input loop of `random_tx`: draw the 32-byte txid
preimage and the vout, charge 36 bytes for the outpoint
(`saturating_sub`), draw the witness stack when `has_witness`, draw the
script-sig as a budgeted draw when `has_witness` (else empty), then draw
the sequence number. -/
def gen_input (has_witness : Bool) (budget : Nat) (s : RngState) :
    TxIn × Nat × RngState :=
  let (preimage, s) := fill_bytes 32 s
  let (vout, s) := nextU32 s
  let budget := budget - 36
  let (witness, budget, s) :=
    if has_witness then
      let (witness_item_count, s) := random_range WITNESS_LENGTH s
      witness_items_loop witness_item_count budget s
    else
      ([], budget, s)
  let (script_sig, budget, s) :=
    if has_witness then
      random_bytes_lt SCRIPT_SIG_LENGTH budget s
    else
      ([], budget, s)
  let (sequence, s) := nextU32 s
  (⟨⟨txid_hash preimage, vout⟩, script_sig, sequence, witness⟩, budget, s)

/-- The input loop of `random_tx`. -/
def inputs_loop (n : Nat) (hw : Bool) (budget : Nat) (s : RngState) :
    List TxIn × Nat × RngState :=
  push_loop (gen_input hw) n budget s

/-- One iteration of the output loop of `random_tx`: a 64-bit value reduced
modulo `MAX_MONEY + 1` and a budgeted script-pubkey draw. -/
def gen_output (budget : Nat) (s : RngState) : TxOut × Nat × RngState :=
  let (v, s') := nextU64 s
  let value := v % (MAX_MONEY + 1)
  let (script_pubkey_bytes, budget', s'') :=
    random_bytes_lt SCRIPT_PUBKEY_LENGTH budget s'
  (⟨value, script_pubkey_bytes⟩, budget', s'')

/-- The output loop of `random_tx`. -/
def outputs_loop (n budget : Nat) (s : RngState) :
    List TxOut × Nat × RngState :=
  push_loop gen_output n budget s

/-- `random_tx`: draw version, lock time, `input_count` from `[1,129]`,
`output_count` from `[0,129]`, the byte budget from `[0,10000]` and the
transaction-wide `has_witness` parity bit, then run the input and output
loops threading the budget through. -/
def random_tx (s : RngState) : Transaction × RngState :=
  let (version, s) := nextU32 s
  let (lock_time, s) := nextU32 s
  let (input_count, s) := random_range INPUT_COUNT s
  let (output_count, s) := random_range OUTPUT_COUNT s
  let (random_bytes_remaining, s) := random_range RANDOM_BYTES_COUNT s
  let (w, s) := nextU32 s
  let has_witness := w % 2 == 1
  let (input, random_bytes_remaining, s) :=
    inputs_loop input_count has_witness random_bytes_remaining s
  let (output, _, s) := outputs_loop output_count random_bytes_remaining s
  (⟨version, lock_time, input, output⟩, s)

/-!
The canonical binary encoder/decoder.  The implementation consumes it from
the external `bitcoin` crate (`serialize_hex` / `deserialize_hex`); it is
not part of this repository.  Modelled from the spec: the canonical,
order-preserving Bitcoin transaction wire format (little-endian fixed-width
integers, CompactSize-prefixed variable-length sequences, segregated-witness
marker form exactly when some input carries a non-empty witness stack), such
that a conforming decoder parses the encoding back into the identical
structure.  The hex layer is a bijective byte-to-digit-pair map, so the
model works at the byte level.
-/

/-- Little-endian fixed-width encoding: `w` bytes carrying `n`'s low
`8 * w` bits. -/
def encodeLE : Nat → Nat → List Nat
  | 0, _ => []
  | Nat.succ w, n => n % 256 :: encodeLE w (n / 256)

/-- Little-endian fixed-width decoding: read `w` bytes, return the value
and the unconsumed tail. -/
def decodeLE : Nat → List Nat → Option (Nat × List Nat)
  | 0, bs => some (0, bs)
  | Nat.succ _, [] => none
  | Nat.succ w, b :: bs =>
    match decodeLE w bs with
    | none => none
    | some (n, rest) => some (b + 256 * n, rest)

/-- Bitcoin's CompactSize variable-length integer encoding. -/
def encodeVarInt (n : Nat) : List Nat :=
  if n < 253 then [n]
  else if n < 2 ^ 16 then 253 :: encodeLE 2 n
  else if n < 2 ^ 32 then 254 :: encodeLE 4 n
  else 255 :: encodeLE 8 n

/-- CompactSize decoding: dispatch on the marker byte. -/
def decodeVarInt : List Nat → Option (Nat × List Nat)
  | [] => none
  | b :: bs =>
    if b < 253 then some (b, bs)
    else if b = 253 then decodeLE 2 bs
    else if b = 254 then decodeLE 4 bs
    else decodeLE 8 bs

/-- Read exactly `n` raw bytes. -/
def readBytes : Nat → List Nat → Option (List Nat × List Nat)
  | 0, bs => some ([], bs)
  | Nat.succ _, [] => none
  | Nat.succ n, b :: bs =>
    match readBytes n bs with
    | none => none
    | some (xs, rest) => some (b :: xs, rest)

/-- A length-prefixed byte string (script, witness item). -/
def encodeVarBytes (bs : List Nat) : List Nat :=
  encodeVarInt bs.length ++ bs

def decodeVarBytes (input : List Nat) : Option (List Nat × List Nat) :=
  match decodeVarInt input with
  | none => none
  | some (n, rest) => readBytes n rest

/-- Concatenation of per-element encodings. -/
def encodeElems (f : α → List Nat) : List α → List Nat
  | [] => []
  | x :: xs => f x ++ encodeElems f xs

/-- A CompactSize-count-prefixed sequence. -/
def encodeList (f : α → List Nat) (xs : List α) : List Nat :=
  encodeVarInt xs.length ++ encodeElems f xs

/-- Decode exactly `n` consecutive elements. -/
def decodeElems (g : List Nat → Option (α × List Nat)) :
    Nat → List Nat → Option (List α × List Nat)
  | 0, bs => some ([], bs)
  | Nat.succ n, bs =>
    match g bs with
    | none => none
    | some (x, rest) =>
      match decodeElems g n rest with
      | none => none
      | some (xs, rest') => some (x :: xs, rest')

/-- Decode a CompactSize-count-prefixed sequence. -/
def decodeList (g : List Nat → Option (α × List Nat)) (bs : List Nat) :
    Option (List α × List Nat) :=
  match decodeVarInt bs with
  | none => none
  | some (n, rest) => decodeElems g n rest

def encodeOutPoint (o : OutPoint) : List Nat :=
  o.txid ++ encodeLE 4 o.vout

def decodeOutPoint (bs : List Nat) : Option (OutPoint × List Nat) :=
  match readBytes 32 bs with
  | none => none
  | some (txid, rest) =>
    match decodeLE 4 rest with
    | none => none
    | some (vout, rest') => some (⟨txid, vout⟩, rest')

/-- A transaction input on the wire (the witness stack travels separately,
after the outputs, in the segregated-witness form). -/
def encodeTxIn (i : TxIn) : List Nat :=
  encodeOutPoint i.previous_output ++ encodeVarBytes i.script_sig ++
    encodeLE 4 i.sequence

def decodeTxIn (bs : List Nat) : Option (TxIn × List Nat) :=
  match decodeOutPoint bs with
  | none => none
  | some (po, rest) =>
    match decodeVarBytes rest with
    | none => none
    | some (sig, rest') =>
      match decodeLE 4 rest' with
      | none => none
      | some (seq, rest'') => some (⟨po, sig, seq, []⟩, rest'')

def encodeTxOut (o : TxOut) : List Nat :=
  encodeLE 8 o.value ++ encodeVarBytes o.script_pubkey

def decodeTxOut (bs : List Nat) : Option (TxOut × List Nat) :=
  match decodeLE 8 bs with
  | none => none
  | some (v, rest) =>
    match decodeVarBytes rest with
    | none => none
    | some (spk, rest') => some (⟨v, spk⟩, rest')

/-- A witness stack: a counted sequence of length-prefixed items. -/
def encodeWitness (w : List (List Nat)) : List Nat :=
  encodeList encodeVarBytes w

def decodeWitness (bs : List Nat) : Option (List (List Nat) × List Nat) :=
  decodeList decodeVarBytes bs

/-- The transaction carries witness data when some input's stack is
non-empty; exactly then the segregated-witness wire form is used. -/
def hasWitnessData (tx : Transaction) : Bool :=
  tx.input.any fun i => !i.witness.isEmpty

/-- The canonical transaction wire encoding. -/
def encodeTx (tx : Transaction) : List Nat :=
  if hasWitnessData tx then
    encodeLE 4 tx.version ++ 0 :: 1 :: encodeList encodeTxIn tx.input ++
      encodeList encodeTxOut tx.output ++
      encodeElems (fun i : TxIn => encodeWitness i.witness) tx.input ++
      encodeLE 4 tx.lock_time
  else
    encodeLE 4 tx.version ++ encodeList encodeTxIn tx.input ++
      encodeList encodeTxOut tx.output ++ encodeLE 4 tx.lock_time

/-- Attach decoded witness stacks to the corresponding inputs. -/
def attachWitnesses (ins : List TxIn) (ws : List (List (List Nat))) :
    List TxIn :=
  List.zipWith (fun (i : TxIn) w =>
    ⟨i.previous_output, i.script_sig, i.sequence, w⟩) ins ws

/-- The canonical transaction wire decoding: after the version, a zero
input count signals the segregated-witness marker, whose flag byte must be
one; otherwise the legacy form follows. -/
def decodeTx (bs : List Nat) : Option (Transaction × List Nat) :=
  match decodeLE 4 bs with
  | none => none
  | some (version, r0) =>
    match decodeVarInt r0 with
    | none => none
    | some (n, r1) =>
      if n = 0 then
        match r1 with
        | [] => none
        | flag :: r2 =>
          if flag = 1 then
            match decodeList decodeTxIn r2 with
            | none => none
            | some (ins, r3) =>
              match decodeList decodeTxOut r3 with
              | none => none
              | some (outs, r4) =>
                match decodeElems decodeWitness ins.length r4 with
                | none => none
                | some (ws, r5) =>
                  match decodeLE 4 r5 with
                  | none => none
                  | some (lt, r6) =>
                    some (⟨version, lt, attachWitnesses ins ws, outs⟩, r6)
          else none
      else
        match decodeElems decodeTxIn n r1 with
        | none => none
        | some (ins, r2) =>
          match decodeList decodeTxOut r2 with
          | none => none
          | some (outs, r3) =>
            match decodeLE 4 r3 with
            | none => none
            | some (lt, r4) => some (⟨version, lt, ins, outs⟩, r4)

/-- The descriptor object built in `main` for each generated transaction:
`inputs: tx.input.len() as u32`, `witness: any non-empty witness stack`,
`script_sigs: any non-empty script-sig`. -/
structure Desc where
  inputs : Nat
  outputs : Nat
  witness : Bool
  version : Nat
  script_sigs : Bool
deriving DecidableEq

def mkDesc (tx : Transaction) : Desc :=
  { inputs := tx.input.length % 2 ^ 32
  , outputs := tx.output.length % 2 ^ 32
  , witness := tx.input.any fun i => !i.witness.isEmpty
  , version := tx.version
  , script_sigs := tx.input.any fun i => !i.script_sig.isEmpty }

/-- A produced test-vector entry, the oracle interaction aside (the spend
indices and oracle results are external pass-through data). -/
structure CtvTestVector where
  transaction : List Nat
  desc : Desc
deriving DecidableEq

/-- The per-transaction body of `main`'s generation loop: serialize the
transaction, decode the serialization back (`deserialize_hex(..)
.expect("deserialize hex")` — a decode failure aborts, modelled as `none`,
and no entry is produced), then build the descriptor and accept the
entry. -/
def processTx (tx : Transaction) : Option CtvTestVector :=
  let hextx := encodeTx tx
  match decodeTx hextx with
  | none => none
  | some _ => some ⟨hextx, mkDesc tx⟩

/-!
Observers naming the individual draws of `random_tx` and its intermediate
results, so that theorems can speak about "the drawn budget", "the drawn
input count", and so on.  Each is definitionally equal to the
corresponding draw inside `random_tx` (`random_tx_eq` below is `rfl`).
-/

def drawn_version (s : RngState) : Nat := (nextU32 s).1

def drawn_lock_time (s : RngState) : Nat := (nextU32 ⟨s.gen, s.pos + 1⟩).1

def drawn_input_count (s : RngState) : Nat :=
  (random_range INPUT_COUNT ⟨s.gen, s.pos + 2⟩).1

def drawn_output_count (s : RngState) : Nat :=
  (random_range OUTPUT_COUNT ⟨s.gen, s.pos + 3⟩).1

def drawn_budget (s : RngState) : Nat :=
  (random_range RANDOM_BYTES_COUNT ⟨s.gen, s.pos + 4⟩).1

def drawn_has_witness (s : RngState) : Bool :=
  (nextU32 ⟨s.gen, s.pos + 5⟩).1 % 2 == 1

/-- The input-loop phase of `random_tx`: input list, budget left, stream
left. -/
def tx_inputs_res (s : RngState) : List TxIn × Nat × RngState :=
  inputs_loop (drawn_input_count s) (drawn_has_witness s) (drawn_budget s)
    ⟨s.gen, s.pos + 6⟩

/-- The output-loop phase of `random_tx`, fed the budget and stream left by
the input loop. -/
def tx_outputs_res (s : RngState) : List TxOut × Nat × RngState :=
  outputs_loop (drawn_output_count s) (tx_inputs_res s).2.1 (tx_inputs_res s).2.2

/-- `random_tx` unfolded into its observers; definitional. -/
theorem random_tx_eq (s : RngState) :
    random_tx s =
      (⟨drawn_version s, drawn_lock_time s, (tx_inputs_res s).1,
        (tx_outputs_res s).1⟩,
       (tx_outputs_res s).2.2) := rfl

/-- The witness-item count drawn inside one input-loop iteration
(after the 32-byte preimage and the vout). -/
def input_wic (s : RngState) : Nat :=
  (random_range WITNESS_LENGTH ⟨s.gen, s.pos + 33⟩).1

/-- The witness-stack phase of one witness-mode input-loop iteration. -/
def input_witness_res (b : Nat) (s : RngState) :
    List (List Nat) × Nat × RngState :=
  witness_items_loop (input_wic s) (b - 36) ⟨s.gen, s.pos + 34⟩

/-- The script-sig draw of one witness-mode input-loop iteration. -/
def input_sig_res (b : Nat) (s : RngState) : List Nat × Nat × RngState :=
  random_bytes_lt SCRIPT_SIG_LENGTH (input_witness_res b s).2.1
    (input_witness_res b s).2.2

/-- `gen_input` in witness mode, unfolded into its observers;
definitional. -/
theorem gen_input_true_eq (b : Nat) (s : RngState) :
    gen_input true b s =
      (⟨⟨txid_hash (fill_bytes 32 s).1, (nextU32 ⟨s.gen, s.pos + 32⟩).1⟩,
        (input_sig_res b s).1, (nextU32 (input_sig_res b s).2.2).1,
        (input_witness_res b s).1⟩,
       (input_sig_res b s).2.1, (nextU32 (input_sig_res b s).2.2).2) := rfl

/-- `gen_input` in non-witness mode: empty script-sig, empty witness
stack, the 36-byte outpoint charge only. -/
theorem gen_input_false_eq (b : Nat) (s : RngState) :
    gen_input false b s =
      (⟨⟨txid_hash (fill_bytes 32 s).1, (nextU32 ⟨s.gen, s.pos + 32⟩).1⟩,
        [], (nextU32 ⟨s.gen, s.pos + 33⟩).1, []⟩,
       b - 36, ⟨s.gen, s.pos + 34⟩) := rfl

/-- `random_bytes_lt` on a positive budget, unfolded. -/
theorem random_bytes_lt_pos_eq (r : Nat × Nat) (b : Nat) (s : RngState)
    (hb : 1 ≤ b) :
    random_bytes_lt r b s =
      ((fill_bytes ((r.1 + (nextU64 s).1 % (max (r.2 - r.1) 0 + 1)) % (b + 1))
          (nextU64 s).2).1,
       b - (r.1 + (nextU64 s).1 % (max (r.2 - r.1) 0 + 1)) % (b + 1),
       (fill_bytes ((r.1 + (nextU64 s).1 % (max (r.2 - r.1) 0 + 1)) % (b + 1))
          (nextU64 s).2).2) := by
  unfold random_bytes_lt
  rw [if_neg (by omega)]
  rfl

theorem fill_bytes_length (n : Nat) (s : RngState) :
    (fill_bytes n s).1.length = n := by
  simp [fill_bytes]

/-- The budget never grows across one budgeted draw. -/
theorem random_bytes_lt_budget_le (r : Nat × Nat) (b : Nat) (s : RngState) :
    (random_bytes_lt r b s).2.1 ≤ b := by
  unfold random_bytes_lt
  split
  · exact le_refl b
  · exact Nat.sub_le _ _

/-- A budgeted draw emits at most `budget` bytes. -/
theorem random_bytes_lt_length_le_budget (r : Nat × Nat) (b : Nat)
    (s : RngState) : (random_bytes_lt r b s).1.length ≤ b := by
  rcases Nat.eq_zero_or_pos b with hb | hb
  · subst hb; exact Nat.le_refl 0
  · rw [random_bytes_lt_pos_eq r b s hb]
    rw [fill_bytes_length]
    exact Nat.lt_succ_iff.mp (Nat.mod_lt _ (Nat.succ_pos b))

/-- A budgeted draw over the range `(0, hi)` emits at most `hi` bytes. -/
theorem random_bytes_lt_length_le_hi (hi b : Nat) (s : RngState) :
    (random_bytes_lt (0, hi) b s).1.length ≤ hi := by
  rcases Nat.eq_zero_or_pos b with hb | hb
  · subst hb; exact Nat.zero_le hi
  · rw [random_bytes_lt_pos_eq (0, hi) b s hb, fill_bytes_length]
    refine le_trans (Nat.mod_le _ _) ?_
    simp only [Nat.zero_add, Nat.sub_zero, Nat.max_eq_left (Nat.zero_le hi)]
    exact Nat.lt_succ_iff.mp (Nat.mod_lt _ (Nat.succ_pos hi))

/-- The budget decrement of a budgeted draw is exactly the emitted
length. -/
theorem random_bytes_lt_budget_add_length (r : Nat × Nat) (b : Nat)
    (s : RngState) :
    (random_bytes_lt r b s).2.1 + (random_bytes_lt r b s).1.length = b := by
  rcases Nat.eq_zero_or_pos b with hb | hb
  · subst hb; rfl
  · rw [random_bytes_lt_pos_eq r b s hb, fill_bytes_length]
    exact Nat.sub_add_cancel
      (Nat.lt_succ_iff.mp (Nat.mod_lt _ (Nat.succ_pos b)))

/-- A loop whose step never grows the budget never grows the budget. -/
theorem push_loop_budget_le (step : Nat → RngState → α × Nat × RngState)
    (hstep : ∀ b s, (step b s).2.1 ≤ b) :
    ∀ n b s, (push_loop step n b s).2.1 ≤ b := by
  intro n
  induction n with
  | zero => intro b s; exact le_refl b
  | succ n ih =>
    intro b s
    simp only [push_loop]
    have hb' := hstep b s
    rcases hs : step b s with ⟨x, b', s'⟩
    rw [hs] at hb'
    split
    · exact hb'
    · exact le_trans (ih b' s') hb'

/-- A loop with fuel `n` pushes at most `n` elements. -/
theorem push_loop_length_le (step : Nat → RngState → α × Nat × RngState) :
    ∀ n b s, (push_loop step n b s).1.length ≤ n := by
  intro n
  induction n with
  | zero => intro b s; exact Nat.le_refl 0
  | succ n ih =>
    intro b s
    simp only [push_loop]
    rcases hs : step b s with ⟨x, b', s'⟩
    split
    · exact Nat.succ_le_succ (Nat.zero_le n)
    · exact Nat.succ_le_succ (ih b' s')

/-- A loop with positive fuel pushes at least one element: the first
element is pushed before the budget check. -/
theorem push_loop_length_pos (step : Nat → RngState → α × Nat × RngState)
    (n b : Nat) (s : RngState) (h : 1 ≤ n) :
    1 ≤ (push_loop step n b s).1.length := by
  rcases n with _ | n
  · omega
  · simp only [push_loop]
    rcases hs : step b s with ⟨x, b', s'⟩
    split
    · exact Nat.le_refl 1
    · exact Nat.succ_le_succ (Nat.zero_le _)

/-- Every pushed element is a step result, so any property of all step
results holds of all pushed elements. -/
theorem push_loop_mem (step : Nat → RngState → α × Nat × RngState)
    (P : α → Prop) (hstep : ∀ b s, P (step b s).1) :
    ∀ n b s, ∀ x ∈ (push_loop step n b s).1, P x := by
  intro n
  induction n with
  | zero => intro b s x hx; simp [push_loop] at hx
  | succ n ih =>
    intro b s x hx
    simp only [push_loop] at hx
    have hP := hstep b s
    rcases hs : step b s with ⟨y, b', s'⟩
    rw [hs] at hx hP
    by_cases hb : b' < 1
    · rw [if_pos hb] at hx
      simp only [List.mem_singleton] at hx
      exact hx ▸ hP
    · rw [if_neg hb] at hx
      simp only [List.mem_cons] at hx
      rcases hx with hx | hx
      · exact hx ▸ hP
      · exact ih b' s' x hx

/-- A loop on an exhausted budget with positive fuel pushes exactly the
first step result and stops (the element is pushed before the budget
check fires). -/
theorem push_loop_zero_eq (step : Nat → RngState → α × Nat × RngState)
    (hstep : ∀ b s, (step b s).2.1 ≤ b) (n : Nat) (s : RngState) :
    push_loop step (n + 1) 0 s = ([(step 0 s).1], (step 0 s).2.1, (step 0 s).2.2) := by
  simp only [push_loop]
  have hb' := hstep 0 s
  rcases hs : step 0 s with ⟨x, b', s'⟩
  rw [hs] at hb'
  rw [if_pos (Nat.lt_succ_of_le hb')]

theorem random_witness_item_budget_le (b : Nat) (s : RngState) :
    (random_witness_item b s).2.1 ≤ b :=
  random_bytes_lt_budget_le WITNESS_ITEM_LENGTH b s

theorem witness_items_loop_budget_le (n b : Nat) (s : RngState) :
    (witness_items_loop n b s).2.1 ≤ b :=
  push_loop_budget_le random_witness_item random_witness_item_budget_le n b s

/-- One input-loop iteration never grows the budget (outpoint charge,
witness items and script-sig all only shrink it). -/
theorem gen_input_budget_le (hw : Bool) (b : Nat) (s : RngState) :
    (gen_input hw b s).2.1 ≤ b := by
  cases hw with
  | false => exact Nat.sub_le b 36
  | true =>
    rw [gen_input_true_eq]
    refine le_trans (random_bytes_lt_budget_le _ _ _) ?_
    refine le_trans (witness_items_loop_budget_le _ _ _) (Nat.sub_le b 36)

/-- One output-loop iteration never grows the budget. -/
theorem gen_output_budget_le (b : Nat) (s : RngState) :
    (gen_output b s).2.1 ≤ b :=
  random_bytes_lt_budget_le SCRIPT_PUBKEY_LENGTH b _

theorem inputs_loop_budget_le (n : Nat) (hw : Bool) (b : Nat) (s : RngState) :
    (inputs_loop n hw b s).2.1 ≤ b :=
  push_loop_budget_le (gen_input hw) (gen_input_budget_le hw) n b s

theorem outputs_loop_budget_le (n b : Nat) (s : RngState) :
    (outputs_loop n b s).2.1 ≤ b :=
  push_loop_budget_le gen_output gen_output_budget_le n b s

/-- Claim C1: for every random stream, every inclusive length range
`[lo, hi]` with `lo ≤ hi` and every remaining budget `b ≥ 1`,
`random_bytes_lt` first picks the candidate length
`lo + (x mod ((hi - lo) + 1))` from one drawn integer `x`, then reduces it
to `candidate mod (b + 1)`, so the emitted length never exceeds `b`; it
decrements the budget by exactly the emitted length and returns a byte
sequence of exactly that length filled by drawing from the stream. -/
theorem C1_random_bytes_lt_budgeted_draw (lo hi b : Nat) (s : RngState)
    (hrange : lo ≤ hi) (hb : 1 ≤ b) :
    (random_bytes_lt (lo, hi) b s).1 =
      (fill_bytes ((lo + (nextU64 s).1 % ((hi - lo) + 1)) % (b + 1))
        (nextU64 s).2).1 ∧
    (random_bytes_lt (lo, hi) b s).1.length =
      (lo + (nextU64 s).1 % ((hi - lo) + 1)) % (b + 1) ∧
    (lo + (nextU64 s).1 % ((hi - lo) + 1)) % (b + 1) ≤ b ∧
    (random_bytes_lt (lo, hi) b s).2.1 =
      b - (lo + (nextU64 s).1 % ((hi - lo) + 1)) % (b + 1) ∧
    (random_bytes_lt (lo, hi) b s).2.1 +
      (random_bytes_lt (lo, hi) b s).1.length = b := by
  have heq := random_bytes_lt_pos_eq (lo, hi) b s hb
  dsimp only at heq
  rw [Nat.max_eq_left (Nat.zero_le (hi - lo))] at heq
  have hlen : (lo + (nextU64 s).1 % ((hi - lo) + 1)) % (b + 1) ≤ b :=
    Nat.lt_succ_iff.mp (Nat.mod_lt _ (Nat.succ_pos b))
  rw [heq]
  refine ⟨rfl, fill_bytes_length _ _, hlen, rfl, ?_⟩
  rw [fill_bytes_length]
  exact Nat.sub_add_cancel hlen

theorem C1_witness :
    (random_bytes_lt (0, 129) 5 ⟨fun _ => 7, 0⟩).2.1 +
      (random_bytes_lt (0, 129) 5 ⟨fun _ => 7, 0⟩).1.length = 5 :=
  (C1_random_bytes_lt_budgeted_draw 0 129 5 ⟨fun _ => 7, 0⟩ (by decide)
    (by decide)).2.2.2.2

/-- Claim C2: across the generation of one transaction by `random_tx`, the
byte budget is non-increasing at every step: every budgeted draw, every
witness-item loop, every whole input-loop iteration (including its fixed
36-byte outpoint charge), every output-loop iteration, both whole loops,
and the two phases of `random_tx` itself only shrink it.  The budget is a
`usize` updated only by `saturating_sub`, modelled as `Nat` truncated
subtraction, so it can never be negative. -/
theorem C2_budget_monotone :
    (∀ r : Nat × Nat, ∀ b : Nat, ∀ s : RngState,
      (random_bytes_lt r b s).2.1 ≤ b) ∧
    (∀ n b : Nat, ∀ s : RngState, (witness_items_loop n b s).2.1 ≤ b) ∧
    (∀ hw : Bool, ∀ b : Nat, ∀ s : RngState, (gen_input hw b s).2.1 ≤ b) ∧
    (∀ b : Nat, ∀ s : RngState, (gen_output b s).2.1 ≤ b) ∧
    (∀ n : Nat, ∀ hw : Bool, ∀ b : Nat, ∀ s : RngState,
      (inputs_loop n hw b s).2.1 ≤ b) ∧
    (∀ n b : Nat, ∀ s : RngState, (outputs_loop n b s).2.1 ≤ b) ∧
    (∀ s : RngState, (tx_inputs_res s).2.1 ≤ drawn_budget s) ∧
    (∀ s : RngState, (tx_outputs_res s).2.1 ≤ (tx_inputs_res s).2.1) :=
  ⟨random_bytes_lt_budget_le,
   witness_items_loop_budget_le,
   gen_input_budget_le,
   gen_output_budget_le,
   inputs_loop_budget_le,
   outputs_loop_budget_le,
   fun _ => inputs_loop_budget_le _ _ _ _,
   fun _ => outputs_loop_budget_le _ _ _⟩

/-- Claim C6: on a remaining budget of `0`, `random_bytes_lt` returns the
empty byte sequence, leaves the budget unchanged at `0` and returns the
stream untouched (nothing is consumed, not even the length draw).  The
function is total — the equation is definitional, so there is no failure
case for any input. -/
theorem C6_zero_budget_draw (lo hi : Nat) (s : RngState) :
    random_bytes_lt (lo, hi) 0 s = ([], 0, s) := rfl

/-- Claim C7: `random_tx` draws `input_count` from `[1,129]`,
`output_count` from `[0,129]` and the global budget from `[0,10000]` by
the modulo-based range draw, and the returned transaction has between 1
and 129 inputs and between 0 and 129 outputs, the lists being no longer
than the drawn counts. -/
theorem C7_count_ranges (s : RngState) :
    drawn_input_count s = 1 + (nextU64 ⟨s.gen, s.pos + 2⟩).1 % 129 ∧
    drawn_output_count s = 0 + (nextU64 ⟨s.gen, s.pos + 3⟩).1 % 130 ∧
    drawn_budget s = 0 + (nextU64 ⟨s.gen, s.pos + 4⟩).1 % 10001 ∧
    1 ≤ drawn_input_count s ∧ drawn_input_count s ≤ 129 ∧
    drawn_output_count s ≤ 129 ∧ drawn_budget s ≤ 10000 ∧
    1 ≤ (random_tx s).1.input.length ∧ (random_tx s).1.input.length ≤ 129 ∧
    (random_tx s).1.output.length ≤ 129 ∧
    (random_tx s).1.input.length ≤ drawn_input_count s ∧
    (random_tx s).1.output.length ≤ drawn_output_count s := by
  have hin : 1 ≤ drawn_input_count s ∧ drawn_input_count s ≤ 129 := by
    have := Nat.mod_lt ((nextU64 ⟨s.gen, s.pos + 2⟩).1) (show 0 < 129 by decide)
    constructor
    · exact Nat.le_add_right 1 _
    · show 1 + (nextU64 ⟨s.gen, s.pos + 2⟩).1 % 129 ≤ 129
      omega
  have hout : drawn_output_count s ≤ 129 := by
    have := Nat.mod_lt ((nextU64 ⟨s.gen, s.pos + 3⟩).1) (show 0 < 130 by decide)
    show 0 + (nextU64 ⟨s.gen, s.pos + 3⟩).1 % 130 ≤ 129
    omega
  have hbud : drawn_budget s ≤ 10000 := by
    have := Nat.mod_lt ((nextU64 ⟨s.gen, s.pos + 4⟩).1) (show 0 < 10001 by decide)
    show 0 + (nextU64 ⟨s.gen, s.pos + 4⟩).1 % 10001 ≤ 10000
    omega
  have hilen : (random_tx s).1.input.length ≤ drawn_input_count s := by
    rw [random_tx_eq]
    exact push_loop_length_le _ _ _ _
  have holen : (random_tx s).1.output.length ≤ drawn_output_count s := by
    rw [random_tx_eq]
    exact push_loop_length_le _ _ _ _
  refine ⟨rfl, rfl, rfl, hin.1, hin.2, hout, hbud, ?_, le_trans hilen hin.2,
    le_trans holen hout, hilen, holen⟩
  rw [random_tx_eq]
  exact push_loop_length_pos _ _ _ _ hin.1

/-- Claim C9: every output value is a drawn 64-bit integer reduced modulo
`MAX_MONEY + 1`, so `0 ≤ value ≤ MAX_MONEY` for every output of every
generated transaction. -/
theorem C9_value_range (s : RngState) :
    (∀ b : Nat, ∀ s' : RngState,
      (gen_output b s').1.value = (nextU64 s').1 % (MAX_MONEY + 1)) ∧
    ∀ o ∈ (random_tx s).1.output, o.value ≤ MAX_MONEY := by
  refine ⟨fun b s' => rfl, ?_⟩
  rw [random_tx_eq]
  refine push_loop_mem gen_output (fun o => o.value ≤ MAX_MONEY) ?_ _ _ _
  intro b s'
  exact Nat.lt_succ_iff.mp (Nat.mod_lt _ (Nat.succ_pos MAX_MONEY))

/-- On an exhausted budget every pushed element is a zero-budget step
result, so any property of zero-budget step results holds of every
element. -/
theorem push_loop_zero_mem (step : Nat → RngState → α × Nat × RngState)
    (hstep : ∀ b s, (step b s).2.1 ≤ b) (P : α → Prop)
    (hP : ∀ s, P (step 0 s).1) :
    ∀ n s, ∀ x ∈ (push_loop step n 0 s).1, P x := by
  intro n s x hx
  rcases n with _ | m
  · simp [push_loop] at hx
  · rw [push_loop_zero_eq step hstep] at hx
    simp only [List.mem_singleton] at hx
    exact hx ▸ hP s

theorem witness_items_loop_zero_all_nil (n : Nat) (s : RngState) :
    ∀ item ∈ (witness_items_loop n 0 s).1, item = [] := by
  refine push_loop_zero_mem random_witness_item random_witness_item_budget_le
    (fun item => item = []) (fun s' => rfl) n s

/-- With budget exhausted, one input-loop iteration leaves the script-sig
empty. -/
theorem gen_input_zero_script_sig (hw : Bool) (s : RngState) :
    (gen_input hw 0 s).1.script_sig = [] := by
  cases hw with
  | false => rfl
  | true =>
    rw [gen_input_true_eq]
    show (input_sig_res 0 s).1 = []
    unfold input_sig_res
    have h0 : (input_witness_res 0 s).2.1 = 0 :=
      Nat.le_zero.mp (witness_items_loop_budget_le _ _ _)
    rw [h0]
    rfl

/-- With budget exhausted, every witness item of one input-loop iteration
is the empty byte string. -/
theorem gen_input_zero_witness_items (hw : Bool) (s : RngState) :
    ∀ item ∈ (gen_input hw 0 s).1.witness, item = [] := by
  cases hw with
  | false =>
    intro item h
    rw [gen_input_false_eq] at h
    simp at h
  | true =>
    rw [gen_input_true_eq]
    exact witness_items_loop_zero_all_nil _ _

/-- Claim C4: when the drawn global byte budget is `0`, the transaction
returned by `random_tx` has an empty unlocking script on every input,
only zero-length witness items on every input, and an empty locking
script on every output. -/
theorem C4_zero_budget_truncation (s : RngState) (h : drawn_budget s = 0) :
    (∀ i ∈ (random_tx s).1.input,
      i.script_sig = [] ∧ ∀ item ∈ i.witness, item = []) ∧
    (∀ o ∈ (random_tx s).1.output, o.script_pubkey = []) := by
  rw [random_tx_eq]
  have hb1 : (tx_inputs_res s).2.1 = 0 := by
    have h2 : (tx_inputs_res s).2.1 ≤ drawn_budget s :=
      inputs_loop_budget_le _ _ _ _
    omega
  constructor
  · show ∀ i ∈ (tx_inputs_res s).1, _
    unfold tx_inputs_res inputs_loop
    rw [h]
    exact push_loop_zero_mem (gen_input (drawn_has_witness s))
      (gen_input_budget_le _)
      (fun i => i.script_sig = [] ∧ ∀ item ∈ i.witness, item = [])
      (fun s' => ⟨gen_input_zero_script_sig _ s',
        gen_input_zero_witness_items _ s'⟩) _ _
  · show ∀ o ∈ (tx_outputs_res s).1, _
    unfold tx_outputs_res outputs_loop
    rw [hb1]
    exact push_loop_zero_mem gen_output gen_output_budget_le
      (fun o => o.script_pubkey = []) (fun s' => rfl) _ _

theorem C4_witness :
    (∀ i ∈ (random_tx ⟨fun _ => 0, 0⟩).1.input,
      i.script_sig = [] ∧ ∀ item ∈ i.witness, item = []) ∧
    (∀ o ∈ (random_tx ⟨fun _ => 0, 0⟩).1.output, o.script_pubkey = []) :=
  C4_zero_budget_truncation ⟨fun _ => 0, 0⟩ rfl

/-- Claim C5: when the drawn `has_witness` flag is false, every input has
an empty script-sig and an empty witness stack; when it is true, every
input's script-sig is a budgeted draw over `[0,129]` (so at most 129
bytes); and for some stream state an input carries both a non-empty
script-sig and a non-empty witness stack. -/
theorem C5_script_sig_and_witness (s : RngState) :
    (drawn_has_witness s = false →
      ∀ i ∈ (random_tx s).1.input, i.script_sig = [] ∧ i.witness = []) ∧
    (drawn_has_witness s = true →
      ∀ i ∈ (random_tx s).1.input, i.script_sig.length ≤ 129) ∧
    (∃ i ∈ (random_tx
        ⟨fun k => List.getD
          [0, 0, 0, 0, 300, 1, 0, 0, 0, 0, 0, 0, 0, 0, 0, 0, 0, 0, 0, 0,
           0, 0, 0, 0, 0, 0, 0, 0, 0, 0, 0, 0, 0, 0, 0, 0, 0, 0, 0, 1,
           2, 0, 0, 3] k 0, 0⟩).1.input,
      i.script_sig ≠ [] ∧ i.witness ≠ []) := by
  refine ⟨?_, ?_, ?_⟩
  · intro hf
    rw [random_tx_eq]
    show ∀ i ∈ (tx_inputs_res s).1, _
    unfold tx_inputs_res inputs_loop
    rw [hf]
    refine push_loop_mem (gen_input false)
      (fun i => i.script_sig = [] ∧ i.witness = []) ?_ _ _ _
    intro b s'
    rw [gen_input_false_eq]
    exact ⟨rfl, rfl⟩
  · intro ht
    rw [random_tx_eq]
    show ∀ i ∈ (tx_inputs_res s).1, _
    unfold tx_inputs_res inputs_loop
    rw [ht]
    refine push_loop_mem (gen_input true)
      (fun i => i.script_sig.length ≤ 129) ?_ _ _ _
    intro b s'
    rw [gen_input_true_eq]
    exact random_bytes_lt_length_le_hi 129 _ _
  · decide

theorem C5_witness :
    drawn_has_witness ⟨fun _ => 0, 0⟩ = false ∧
    ∀ i ∈ (random_tx ⟨fun _ => 0, 0⟩).1.input,
      i.script_sig = [] ∧ i.witness = [] :=
  ⟨rfl, (C5_script_sig_and_witness ⟨fun _ => 0, 0⟩).1 rfl⟩

/-- Claim C8: the descriptor's `witness` flag is true exactly when some
input has a non-empty witness stack, and its `script_sigs` flag is true
exactly when some input has a non-empty unlocking script. -/
theorem C8_desc_flags (s : RngState) :
    ((mkDesc (random_tx s).1).witness = true ↔
      ∃ i ∈ (random_tx s).1.input, i.witness ≠ []) ∧
    ((mkDesc (random_tx s).1).script_sigs = true ↔
      ∃ i ∈ (random_tx s).1.input, i.script_sig ≠ []) := by
  constructor
  · simp [mkDesc, List.any_eq_true]
  · simp [mkDesc, List.any_eq_true]

/-- Claim C10: the witness item of each iteration is pushed before the
budget check, so in witness mode any input whose drawn witness-item count
is at least one has a non-empty witness stack even on an exhausted budget;
consequently a witness stack can be non-empty (turning the descriptor's
`witness` flag on) while every item in it is zero-length. -/
theorem C10_item_pushed_before_check :
    (∀ n b : Nat, ∀ s : RngState, 1 ≤ n →
      (witness_items_loop n b s).1 ≠ []) ∧
    (∀ b : Nat, ∀ s : RngState, 1 ≤ input_wic s →
      (gen_input true b s).1.witness ≠ []) ∧
    (∃ i ∈ (random_tx
        ⟨fun k => List.getD
          [0, 0, 0, 0, 0, 1, 0, 0, 0, 0, 0, 0, 0, 0, 0, 0, 0, 0, 0, 0,
           0, 0, 0, 0, 0, 0, 0, 0, 0, 0, 0, 0, 0, 0, 0, 0, 0, 0, 0, 1] k 0,
         0⟩).1.input,
      i.witness ≠ [] ∧ ∀ item ∈ i.witness, item = []) ∧
    (mkDesc (random_tx
        ⟨fun k => List.getD
          [0, 0, 0, 0, 0, 1, 0, 0, 0, 0, 0, 0, 0, 0, 0, 0, 0, 0, 0, 0,
           0, 0, 0, 0, 0, 0, 0, 0, 0, 0, 0, 0, 0, 0, 0, 0, 0, 0, 0, 1] k 0,
         0⟩).1).witness = true := by
  have hloop : ∀ n b : Nat, ∀ s : RngState, 1 ≤ n →
      (witness_items_loop n b s).1 ≠ [] := by
    intro n b s hn
    have := push_loop_length_pos random_witness_item n b s hn
    exact List.ne_nil_of_length_pos this
  refine ⟨hloop, ?_, by decide, by decide⟩
  intro b s hwic
  rw [gen_input_true_eq]
  exact hloop _ _ _ hwic

theorem C10_witness :
    1 ≤ input_wic ⟨fun _ => 1, 0⟩ ∧
    (gen_input true 0 ⟨fun _ => 1, 0⟩).1.witness ≠ [] :=
  ⟨by decide, C10_item_pushed_before_check.2.1 0 ⟨fun _ => 1, 0⟩ (by decide)⟩

/-!
Round-trip laws of the canonical codec, bottom-up: fixed-width
little-endian integers, CompactSize, raw byte runs, length-prefixed byte
strings, counted sequences, then the three record layers and the whole
transaction.
-/

theorem encodeLE_length (w n : Nat) : (encodeLE w n).length = w := by
  induction w generalizing n with
  | zero => rfl
  | succ w ih => simp [encodeLE, ih]

theorem decodeLE_encodeLE (w n : Nat) (r : List Nat) :
    decodeLE w (encodeLE w n ++ r) = some (n % 256 ^ w, r) := by
  induction w generalizing n with
  | zero => simp [encodeLE, decodeLE, Nat.mod_one]
  | succ w ih =>
    have hm : n % 256 ^ (w + 1) = n % 256 + 256 * (n / 256 % 256 ^ w) := by
      rw [pow_succ, mul_comm (256 ^ w) 256, Nat.mod_mul]
    simp only [encodeLE, List.cons_append, decodeLE, List.append_eq, ih, hm]

theorem decodeLE_encodeLE_of_lt (w n : Nat) (r : List Nat)
    (h : n < 256 ^ w) : decodeLE w (encodeLE w n ++ r) = some (n, r) := by
  rw [decodeLE_encodeLE, Nat.mod_eq_of_lt h]

theorem readBytes_append (xs r : List Nat) :
    readBytes xs.length (xs ++ r) = some (xs, r) := by
  induction xs with
  | nil => rfl
  | cons x xs ih => simp [readBytes, ih]

theorem decodeVarInt_encodeVarInt (n : Nat) (r : List Nat)
    (h : n < 2 ^ 64) :
    decodeVarInt (encodeVarInt n ++ r) = some (n, r) := by
  unfold encodeVarInt
  by_cases h1 : n < 253
  · rw [if_pos h1]
    simp [decodeVarInt, h1]
  · rw [if_neg h1]
    by_cases h2 : n < 2 ^ 16
    · rw [if_pos h2]
      simp only [List.cons_append, decodeVarInt, if_neg (by omega : ¬(253 < 253)),
        if_pos rfl]
      exact decodeLE_encodeLE_of_lt 2 n r (by norm_num at h2 ⊢; omega)
    · rw [if_neg h2]
      by_cases h3 : n < 2 ^ 32
      · rw [if_pos h3]
        simp only [List.cons_append, decodeVarInt, if_neg (by omega : ¬(254 < 253)),
          if_neg (by omega : ¬(254 = 253)), if_pos rfl]
        exact decodeLE_encodeLE_of_lt 4 n r (by norm_num at h3 ⊢; omega)
      · rw [if_neg h3]
        simp only [List.cons_append, decodeVarInt, if_neg (by omega : ¬(255 < 253)),
          if_neg (by omega : ¬(255 = 253)), if_neg (by omega : ¬(255 = 254))]
        exact decodeLE_encodeLE_of_lt 8 n r (by norm_num at h ⊢; omega)

theorem decodeVarBytes_encodeVarBytes (bs r : List Nat)
    (h : bs.length < 2 ^ 64) :
    decodeVarBytes (encodeVarBytes bs ++ r) = some (bs, r) := by
  unfold encodeVarBytes decodeVarBytes
  rw [List.append_assoc, decodeVarInt_encodeVarInt _ _ h]
  exact readBytes_append bs r

/-- Decoding `xs.length` consecutive elements of the concatenated
per-element encodings recovers the image of `xs` under the per-element
decode result `m`. -/
theorem decodeElems_encodeElems {α β : Type} (f : α → List Nat)
    (g : List Nat → Option (β × List Nat)) (m : α → β) (xs : List α)
    (r : List Nat)
    (hg : ∀ x ∈ xs, ∀ t : List Nat, g (f x ++ t) = some (m x, t)) :
    decodeElems g xs.length (encodeElems f xs ++ r) = some (xs.map m, r) := by
  induction xs with
  | nil => rfl
  | cons x xs ih =>
    simp only [List.length_cons, encodeElems, List.append_assoc, decodeElems,
      hg x (List.mem_cons_self x xs),
      ih fun y hy t => hg y (List.mem_cons_of_mem x hy) t, List.map_cons]

theorem decodeList_encodeList {α β : Type} (f : α → List Nat)
    (g : List Nat → Option (β × List Nat)) (m : α → β) (xs : List α)
    (r : List Nat) (hlen : xs.length < 2 ^ 64)
    (hg : ∀ x ∈ xs, ∀ t : List Nat, g (f x ++ t) = some (m x, t)) :
    decodeList g (encodeList f xs ++ r) = some (xs.map m, r) := by
  unfold encodeList decodeList
  rw [List.append_assoc, decodeVarInt_encodeVarInt _ _ hlen]
  exact decodeElems_encodeElems f g m xs r hg

theorem decodeOutPoint_encodeOutPoint (o : OutPoint) (r : List Nat)
    (h32 : o.txid.length = 32) (hv : o.vout < 2 ^ 32) :
    decodeOutPoint (encodeOutPoint o ++ r) = some (o, r) := by
  unfold encodeOutPoint decodeOutPoint
  rw [List.append_assoc, show (32 : Nat) = o.txid.length from h32.symm]
  simp only [readBytes_append,
    decodeLE_encodeLE_of_lt 4 o.vout r (lt_of_lt_of_le hv (by norm_num))]

theorem decodeTxIn_encodeTxIn (i : TxIn) (r : List Nat)
    (h32 : i.previous_output.txid.length = 32)
    (hv : i.previous_output.vout < 2 ^ 32)
    (hsig : i.script_sig.length < 2 ^ 64) (hseq : i.sequence < 2 ^ 32) :
    decodeTxIn (encodeTxIn i ++ r) =
      some (⟨i.previous_output, i.script_sig, i.sequence, []⟩, r) := by
  unfold encodeTxIn decodeTxIn
  rw [List.append_assoc, List.append_assoc]
  simp only
    [decodeOutPoint_encodeOutPoint i.previous_output
      (encodeVarBytes i.script_sig ++ (encodeLE 4 i.sequence ++ r)) h32 hv,
    decodeVarBytes_encodeVarBytes i.script_sig (encodeLE 4 i.sequence ++ r)
      hsig,
    decodeLE_encodeLE_of_lt 4 i.sequence r (lt_of_lt_of_le hseq (by norm_num))]

theorem decodeTxOut_encodeTxOut (o : TxOut) (r : List Nat)
    (hval : o.value < 2 ^ 64) (hspk : o.script_pubkey.length < 2 ^ 64) :
    decodeTxOut (encodeTxOut o ++ r) = some (o, r) := by
  unfold encodeTxOut decodeTxOut
  rw [List.append_assoc]
  simp only
    [decodeLE_encodeLE_of_lt 8 o.value (encodeVarBytes o.script_pubkey ++ r)
      (lt_of_lt_of_le hval (by norm_num)),
    decodeVarBytes_encodeVarBytes o.script_pubkey r hspk]

theorem decodeWitness_encodeWitness (w : List (List Nat)) (r : List Nat)
    (hlen : w.length < 2 ^ 64) (hitem : ∀ x ∈ w, x.length < 2 ^ 64) :
    decodeWitness (encodeWitness w ++ r) = some (w, r) := by
  unfold encodeWitness decodeWitness
  rw [decodeList_encodeList encodeVarBytes decodeVarBytes id w r hlen
    fun x hx t => decodeVarBytes_encodeVarBytes x t (hitem x hx)]
  rw [List.map_id]

/-- The witness-stripped view of an input: what the input-list layer of
the wire format carries (stacks travel separately). -/
def eraseWitness (i : TxIn) : TxIn :=
  ⟨i.previous_output, i.script_sig, i.sequence, []⟩

theorem eraseWitness_eq_self {i : TxIn} (h : i.witness = []) :
    eraseWitness i = i := by
  unfold eraseWitness
  rw [← h]

theorem map_eraseWitness_eq_self {l : List TxIn}
    (h : ∀ i ∈ l, i.witness = []) : l.map eraseWitness = l := by
  induction l with
  | nil => rfl
  | cons i l ih =>
    rw [List.map_cons, eraseWitness_eq_self (h i (List.mem_cons_self i l)),
      ih fun j hj => h j (List.mem_cons_of_mem i hj)]

theorem attachWitnesses_eraseWitness (ins : List TxIn) :
    attachWitnesses (ins.map eraseWitness) (ins.map fun i => i.witness)
      = ins := by
  induction ins with
  | nil => rfl
  | cons i ins ih =>
    simp only [attachWitnesses] at ih ⊢
    simp only [List.map_cons, List.zipWith_cons_cons, ih]
    rfl

theorem hasWitnessData_false_iff (tx : Transaction) :
    hasWitnessData tx = false ↔ ∀ i ∈ tx.input, i.witness = [] := by
  simp [hasWitnessData]

theorem decodeVarInt_zero_cons (bs : List Nat) :
    decodeVarInt (0 :: bs) = some (0, bs) := rfl

/-- Well-formedness of the fields of one input, as the generator
guarantees them: every fixed-width field fits its width, every counted
sequence fits a CompactSize count, and the txid is exactly 32 bytes. -/
def WellFormedTxIn (i : TxIn) : Prop :=
  i.previous_output.txid.length = 32 ∧ i.previous_output.vout < 2 ^ 32 ∧
    i.script_sig.length < 2 ^ 64 ∧ i.sequence < 2 ^ 32 ∧
    i.witness.length < 2 ^ 64 ∧ ∀ item ∈ i.witness, item.length < 2 ^ 64

def WellFormedTxOut (o : TxOut) : Prop :=
  o.value < 2 ^ 64 ∧ o.script_pubkey.length < 2 ^ 64

def WellFormed (tx : Transaction) : Prop :=
  tx.version < 2 ^ 32 ∧ tx.lock_time < 2 ^ 32 ∧
    tx.input.length < 2 ^ 64 ∧ tx.output.length < 2 ^ 64 ∧
    (∀ i ∈ tx.input, WellFormedTxIn i) ∧ ∀ o ∈ tx.output, WellFormedTxOut o

/-- The canonical codec round-trip: decoding the encoding of any
well-formed transaction with at least one input returns the identical
structure and the untouched tail. -/
theorem decodeTx_encodeTx (tx : Transaction) (r : List Nat)
    (hwf : WellFormed tx) (hne : tx.input ≠ []) :
    decodeTx (encodeTx tx ++ r) = some (tx, r) := by
  obtain ⟨hv, hlt, hinlen, houtlen, hin, hout⟩ := hwf
  have hver : ∀ t : List Nat,
      decodeLE 4 (encodeLE 4 tx.version ++ t) = some (tx.version, t) :=
    fun t => decodeLE_encodeLE_of_lt 4 tx.version t
      (lt_of_lt_of_le hv (by norm_num))
  have hlock : ∀ t : List Nat,
      decodeLE 4 (encodeLE 4 tx.lock_time ++ t) = some (tx.lock_time, t) :=
    fun t => decodeLE_encodeLE_of_lt 4 tx.lock_time t
      (lt_of_lt_of_le hlt (by norm_num))
  have hg_in : ∀ i ∈ tx.input, ∀ t : List Nat,
      decodeTxIn (encodeTxIn i ++ t) = some (eraseWitness i, t) := by
    intro i hi t
    obtain ⟨h32, hvout, hsig, hseq, _, _⟩ := hin i hi
    exact decodeTxIn_encodeTxIn i t h32 hvout hsig hseq
  have hg_out : ∀ o ∈ tx.output, ∀ t : List Nat,
      decodeTxOut (encodeTxOut o ++ t) = some (o, t) := by
    intro o ho t
    obtain ⟨hval, hspk⟩ := hout o ho
    exact decodeTxOut_encodeTxOut o t hval hspk
  have houts : ∀ t : List Nat,
      decodeList decodeTxOut (encodeVarInt tx.output.length ++
        (encodeElems encodeTxOut tx.output ++ t)) = some (tx.output, t) := by
    intro t
    have h := decodeList_encodeList encodeTxOut decodeTxOut id tx.output t
      houtlen fun o ho t' => hg_out o ho t'
    rwa [List.map_id, encodeList, List.append_assoc] at h
  have hne0 : ¬(tx.input.length = 0) := by
    simpa [List.length_eq_zero] using hne
  cases hwd : hasWitnessData tx with
  | false =>
    have hnil : ∀ i ∈ tx.input, i.witness = [] :=
      (hasWitnessData_false_iff tx).mp hwd
    have hins : ∀ t : List Nat,
        decodeElems decodeTxIn tx.input.length
          (encodeElems encodeTxIn tx.input ++ t) = some (tx.input, t) := by
      intro t
      have := decodeElems_encodeElems encodeTxIn decodeTxIn eraseWitness
        tx.input t hg_in
      rwa [map_eraseWitness_eq_self hnil] at this
    simp only [encodeTx, hwd, Bool.false_eq_true, if_false, encodeList,
      List.append_assoc, decodeTx, hver, decodeVarInt_encodeVarInt
        tx.input.length _ hinlen, if_neg hne0, hins, houts, hlock]
  | true =>
    have hins : ∀ t : List Nat,
        decodeList decodeTxIn (encodeVarInt tx.input.length ++
          (encodeElems encodeTxIn tx.input ++ t)) =
          some (tx.input.map eraseWitness, t) := by
      intro t
      have h := decodeList_encodeList encodeTxIn decodeTxIn eraseWitness
        tx.input t hinlen hg_in
      rwa [encodeList, List.append_assoc] at h
    have hg_wit : ∀ i ∈ tx.input, ∀ t : List Nat,
        decodeWitness (encodeWitness i.witness ++ t) = some (i.witness, t) := by
      intro i hi t
      obtain ⟨_, _, _, _, hwlen, hitem⟩ := hin i hi
      exact decodeWitness_encodeWitness i.witness t hwlen hitem
    have hwits : ∀ t : List Nat,
        decodeElems decodeWitness tx.input.length
          (encodeElems (fun i : TxIn => encodeWitness i.witness) tx.input
            ++ t) =
          some (tx.input.map fun i => i.witness, t) :=
      fun t => decodeElems_encodeElems
        (fun i : TxIn => encodeWitness i.witness) decodeWitness
        (fun i => i.witness) tx.input t hg_wit
    simp only [encodeTx, hwd, if_true, encodeList, List.append_assoc,
      List.cons_append, decodeTx, hver, decodeVarInt_zero_cons, if_pos rfl,
      hins, houts, List.length_map, hwits, hlock,
      attachWitnesses_eraseWitness]

theorem nextU32_lt (s : RngState) : (nextU32 s).1 < 2 ^ 32 :=
  Nat.mod_lt _ (by norm_num)

theorem nextU64_lt (s : RngState) : (nextU64 s).1 < 2 ^ 64 :=
  Nat.mod_lt _ (by norm_num)

theorem drawn_input_count_pos (s : RngState) : 1 ≤ drawn_input_count s :=
  Nat.le_add_right 1 _

theorem drawn_input_count_le (s : RngState) : drawn_input_count s ≤ 129 := by
  show 1 + (nextU64 ⟨s.gen, s.pos + 2⟩).1 % 129 ≤ 129
  have := Nat.mod_lt ((nextU64 ⟨s.gen, s.pos + 2⟩).1) (show 0 < 129 by decide)
  omega

theorem drawn_output_count_le (s : RngState) : drawn_output_count s ≤ 129 := by
  show 0 + (nextU64 ⟨s.gen, s.pos + 3⟩).1 % 130 ≤ 129
  have := Nat.mod_lt ((nextU64 ⟨s.gen, s.pos + 3⟩).1) (show 0 < 130 by decide)
  omega

theorem input_wic_le (s : RngState) : input_wic s ≤ 129 := by
  show 0 + (nextU64 ⟨s.gen, s.pos + 33⟩).1 % 130 ≤ 129
  have := Nat.mod_lt ((nextU64 ⟨s.gen, s.pos + 33⟩).1) (show 0 < 130 by decide)
  omega

theorem witness_item_length_le (b : Nat) (s : RngState) :
    (random_witness_item b s).1.length ≤ 520 :=
  random_bytes_lt_length_le_hi 520 b s

/-- Every input the generator builds is well-formed for the wire
format. -/
theorem gen_input_wf (hw : Bool) (b : Nat) (s : RngState) :
    WellFormedTxIn (gen_input hw b s).1 := by
  cases hw with
  | false =>
    rw [gen_input_false_eq]
    refine ⟨fill_bytes_length 32 s, nextU32_lt _, by norm_num, nextU32_lt _,
      by norm_num, ?_⟩
    intro item h
    simp at h
  | true =>
    rw [gen_input_true_eq]
    refine ⟨fill_bytes_length 32 s, nextU32_lt _, ?_, nextU32_lt _, ?_, ?_⟩
    · exact lt_of_le_of_lt (random_bytes_lt_length_le_hi 129 _ _) (by norm_num)
    · exact lt_of_le_of_lt
        (le_trans (push_loop_length_le _ _ _ _) (input_wic_le s)) (by norm_num)
    · intro item h
      refine lt_of_le_of_lt ?_ (show (520 : Nat) < 2 ^ 64 by norm_num)
      exact push_loop_mem random_witness_item (fun it => it.length ≤ 520)
        witness_item_length_le _ _ _ item h

theorem gen_output_wf (b : Nat) (s : RngState) :
    WellFormedTxOut (gen_output b s).1 := by
  constructor
  · show (nextU64 s).1 % (MAX_MONEY + 1) < 2 ^ 64
    refine lt_of_le_of_lt (Nat.lt_succ_iff.mp (Nat.mod_lt _ (Nat.succ_pos _))) ?_
    norm_num [MAX_MONEY]
  · exact lt_of_le_of_lt (random_bytes_lt_length_le_hi 129 _ _) (by norm_num)

/-- Every transaction the generator returns is well-formed for the wire
format. -/
theorem random_tx_wf (s : RngState) : WellFormed (random_tx s).1 := by
  rw [random_tx_eq]
  refine ⟨nextU32_lt _, nextU32_lt _, ?_, ?_, ?_, ?_⟩
  · exact lt_of_le_of_lt
      (le_trans (push_loop_length_le _ _ _ _) (drawn_input_count_le s))
      (by norm_num)
  · exact lt_of_le_of_lt
      (le_trans (push_loop_length_le _ _ _ _) (drawn_output_count_le s))
      (by norm_num)
  · exact push_loop_mem (gen_input (drawn_has_witness s)) WellFormedTxIn
      (gen_input_wf _) _ _ _
  · exact push_loop_mem gen_output WellFormedTxOut gen_output_wf _ _ _

theorem random_tx_input_ne_nil (s : RngState) :
    (random_tx s).1.input ≠ [] := by
  rw [random_tx_eq]
  exact List.ne_nil_of_length_pos
    (push_loop_length_pos _ _ _ _ (drawn_input_count_pos s))

/-- Claim C3: for every transaction the generator produces, encoding to
the canonical wire form and decoding back succeeds and yields the
structurally identical transaction; `main` runs the encode/decode check
for every produced transaction, and a transaction is accepted into the
output set exactly when the decode succeeds. -/
theorem C3_roundtrip_checked (s : RngState) :
    decodeTx (encodeTx (random_tx s).1) = some ((random_tx s).1, []) ∧
    processTx (random_tx s).1 =
      some ⟨encodeTx (random_tx s).1, mkDesc (random_tx s).1⟩ ∧
    ∀ tx : Transaction,
      (processTx tx).isSome = (decodeTx (encodeTx tx)).isSome := by
  have h := decodeTx_encodeTx (random_tx s).1 [] (random_tx_wf s)
    (random_tx_input_ne_nil s)
  rw [List.append_nil] at h
  refine ⟨h, ?_, ?_⟩
  · unfold processTx
    simp only [h]
  · intro tx
    unfold processTx
    rcases hd : decodeTx (encodeTx tx) with _ | v <;> simp [hd]

end CtvGen
